import Mathlib

/-!
Shallow embedding of the conversation-aware chunking engine and the
resumable embedding/indexing pipeline of `davidballad/useful_import_code`
(`src/smart_chunker.py` and `src/daily_embedding_sync.py`).

Conventions of the embedding:
* Python strings are modelled as `List Char` (`Str`); all string operations
  used by the source (`replace`, `split`, `rsplit`, `in`, slicing, `lower`,
  `endswith`, lexicographic `<=`) are given executable models below.
* `datetime` instants are modelled as `Int` seconds on a single proleptic
  Gregorian timeline; `datetime.now()` is an explicit `now : Int` parameter.
* External capabilities (S3 listing/loading, Bedrock embedding, S3-Vectors
  `put_vectors`, the Lambda remaining-time signal) are oracle parameters;
  an oracle that can fail returns `Except Str _` / `Option _`.
* The SSM last-processed-date parameter is the `cursor` field of the
  driver state; `setLastProcessedDate` is modelled as the (always
  succeeding) cursor update.
-/

/-- Python strings, modelled as lists of characters. -/
abbrev Str := List Char

/-- Model of Python lexicographic string comparison `a <= b`
(code-point order, a proper prefix is smaller). -/
def strLe : Str → Str → Bool
  | [], _ => true
  | _ :: _, [] => false
  | a :: as, b :: bs => if a < b then true else if a = b then strLe as bs else false

theorem strLe_refl (a : Str) : strLe a a = true := by
  induction a with
  | nil => rfl
  | cons c cs ih => simp [strLe, ih]

theorem strLe_total (a b : Str) : strLe a b = true ∨ strLe b a = true := by
  induction a generalizing b with
  | nil => left; rfl
  | cons c cs ih =>
    cases b with
    | nil => right; rfl
    | cons d ds =>
      rcases lt_trichotomy c d with h | h | h
      · left; simp [strLe, h]
      · subst h
        rcases ih ds with h' | h' <;> simp [strLe, h', lt_irrefl]
      · right; simp [strLe, h]

theorem strLe_trans {a b c : Str} (h1 : strLe a b = true) (h2 : strLe b c = true) :
    strLe a c = true := by
  induction a generalizing b c with
  | nil => rfl
  | cons x xs ih =>
    cases b with
    | nil => simp [strLe] at h1
    | cons y ys =>
      cases c with
      | nil => simp [strLe] at h2
      | cons z zs =>
        simp only [strLe] at h1 h2 ⊢
        rcases lt_trichotomy x y with hxy | hxy | hxy
        · rcases lt_trichotomy y z with hyz | hyz | hyz
          · simp [lt_trans hxy hyz]
          · subst hyz; simp [hxy]
          · simp [lt_asymm hyz, ne_of_gt hyz] at h2
        · subst hxy
          simp only [lt_irrefl, if_false, if_pos rfl, if_neg] at h1
          rcases lt_trichotomy x z with hxz | hxz | hxz
          · simp [hxz]
          · subst hxz
            simp only [lt_irrefl, if_false, if_pos rfl, if_neg] at h2 ⊢
            exact ih h1 h2
          · simp [lt_asymm hxz, ne_of_gt hxz] at h2
        · simp [lt_asymm hxy, ne_of_gt hxy] at h1

theorem strLe_of_not_strLe {a b : Str} (h : strLe a b = false) : strLe b a = true := by
  rcases strLe_total a b with h' | h'
  · rw [h'] at h; cases h
  · exact h'

/-- Model of Python `str.lower()` (ASCII case folding suffices here). -/
def lowerStr (s : Str) : Str := s.map Char.toLower

/-- Model of Python `str.split(sep)` for a single-character separator. -/
def splitOnChar (sep : Char) : Str → List Str
  | [] => [[]]
  | c :: rest =>
    let r := splitOnChar sep rest
    if c = sep then [] :: r
    else
      match r with
      | [] => [[c]]
      | h :: t => (c :: h) :: t

/-- Model of Python `sep.join(parts)` for a single-character separator. -/
def joinWith (sep : Char) : List Str → Str
  | [] => []
  | [x] => x
  | x :: y :: rest => x ++ sep :: joinWith sep (y :: rest)

/-- Decimal digits of a natural number (model of Python `str(n)` for `n : Nat`). -/
def natToChars (n : Nat) : Str := Nat.toDigits 10 n

-- ===========================================================================
-- Model of the CPython `datetime` functionality used by `parseTimestamp`
-- ===========================================================================

/-- Model of CPython's Gregorian leap-year test. -/
def isLeap (y : Nat) : Bool := (y % 4 == 0 && y % 100 != 0) || y % 400 == 0

/-- Days in a month of the proleptic Gregorian calendar. -/
def daysInMonth (y m : Nat) : Nat :=
  if m = 2 then (if isLeap y then 29 else 28)
  else if m = 4 ∨ m = 6 ∨ m = 9 ∨ m = 11 then 30
  else 31

/-- Model of CPython `datetime._days_before_year`. -/
def daysBeforeYear (y : Nat) : Nat :=
  let p := y - 1
  365 * p + p / 4 - p / 100 + p / 400

/-- Model of CPython `datetime._days_before_month`. -/
def daysBeforeMonth (y m : Nat) : Nat :=
  ((List.range' 1 (m - 1)).map (daysInMonth y)).sum

/-- Proleptic Gregorian ordinal of a date (model of `date.toordinal`). -/
def toOrdinal (y m d : Nat) : Nat := daysBeforeYear y + daysBeforeMonth y m + d

/-- Read exactly `k` decimal digits from the front of a string,
returning their value and the remaining characters. -/
def readFixedNat (k : Nat) (s : Str) : Option (Nat × Str) :=
  let pre := s.take k
  if pre.length == k && pre.all Char.isDigit then
    some (pre.foldl (fun a c => a * 10 + (c.toNat - 48)) 0, s.drop k)
  else none

/-- Consume one expected character from the front of a string. -/
def expectChar (c : Char) : Str → Option Str
  | x :: rest => if x = c then some rest else none
  | [] => none

/-- Read the time-of-day part `HH[:MM[:SS]]`, returning seconds since
midnight and the remaining characters. -/
def readTime (s : Str) : Option (Int × Str) := do
  let (h, r1) ← readFixedNat 2 s
  if 23 < h then none else
  match r1 with
  | ':' :: r2 => do
    let (mi, r3) ← readFixedNat 2 r2
    if 59 < mi then none else
    match r3 with
    | ':' :: r4 => do
      let (se, r5) ← readFixedNat 2 r4
      if 59 < se then none else some (((h * 3600 + mi * 60 + se : Nat) : Int), r5)
    | _ => some (((h * 3600 + mi * 60 : Nat) : Int), r3)
  | _ => some (((h * 3600 : Nat) : Int), r1)

/-- Model of CPython `datetime.fromisoformat` (the Python ≤ 3.10 grammar
`YYYY-MM-DD[*HH[:MM[:SS]][±HH:MM]]` exercised by the source; the fractional
and `Z` forms are pre-processed away by `parseTimestamp` before this is
called).  The result is an instant in seconds on a single timeline, with a
`±HH:MM` offset normalised away; timezone awareness is abstracted.
Returns `none` where CPython raises `ValueError`: a malformed string, an
out-of-range date or time component, a year below `datetime.MINYEAR = 1`
(the four-digit field already caps it at `MAXYEAR = 9999`), or a UTC
offset whose magnitude is not strictly below 24 hours (the `timezone`
constructor's bound; the minutes field of an offset is not range-checked,
matching CPython, which validates only the resulting `timedelta`). -/
def fromisoformat (s : Str) : Option Int := do
  let (y, r1) ← readFixedNat 4 s
  let r2 ← expectChar '-' r1
  let (mo, r3) ← readFixedNat 2 r2
  let r4 ← expectChar '-' r3
  let (d, r5) ← readFixedNat 2 r4
  if y < 1 then none else
  if mo < 1 ∨ 12 < mo then none else
  if d < 1 ∨ daysInMonth y mo < d then none else
  let dateSecs : Int := (toOrdinal y mo d : Int) * 86400
  match r5 with
  | [] => some dateSecs
  | _sep :: t => do
    let (timeSecs, rest) ← readTime t
    match rest with
    | [] => some (dateSecs + timeSecs)
    | sign :: t2 =>
      if sign = '+' ∨ sign = '-' then do
        let (oh, t3) ← readFixedNat 2 t2
        let t4 ← expectChar ':' t3
        let (om, t5) ← readFixedNat 2 t4
        if t5 = [] then
          let off : Int := (oh : Int) * 3600 + (om : Int) * 60
          if off < 86400 then
            some (dateSecs + timeSecs - (if sign = '+' then off else -off))
          else none
        else none
      else none

-- ===========================================================================
-- src/smart_chunker.py
-- ===========================================================================

/-- `RESOLUTION_WORDS` of `smart_chunker.py`. -/
def RESOLUTION_WORDS : List Str :=
  ["thanks", "thank you", "thx", "ty",
   "solved", "resolved", "fixed", "working now",
   "got it", "that worked", "perfect", "awesome",
   "appreciate it", "makes sense", "understood",
   "all set", "good to go", "sorted",
   "closing this", "issue resolved", "problem solved"].map String.data

/-- `TOPIC_KEYWORDS` of `smart_chunker.py` (insertion order preserved). -/
def TOPIC_KEYWORDS : List (Str × List Str) :=
  [("vpn", ["vpn", "network", "connection", "proxy", "tunnel", "zscaler"]),
   ("terraform", ["terraform", "tf", "module", "provider", "state", "tfvars"]),
   ("iam", ["iam", "role", "policy", "permission", "access", "saml", "federation"]),
   ("aws", ["aws", "amazon", "s3", "ec2", "lambda", "cloudwatch", "bedrock"]),
   ("deployment", ["deploy", "pipeline", "cicd", "jenkins", "github", "actions"]),
   ("troubleshooting", ["error", "failed", "issue", "problem", "help", "fix", "broken"]),
   ("security", ["security", "encrypt", "kms", "secrets", "credential", "token"]),
   ("cost", ["cost", "billing", "finops", "budget", "spend", "savings"])].map
    (fun p => (p.1.data, p.2.map String.data))

/-- `detectResolution` of `smart_chunker.py`: case-insensitive substring
match of any resolution word. -/
def detectResolution (text : Str) : Bool :=
  RESOLUTION_WORDS.any (fun w => decide (w <:+: lowerStr text))

/-- `detectTopics` of `smart_chunker.py`: a topic is appended once if any of
its keywords occurs in the lowered text; `["general"]` if none match. -/
def detectTopics (text : Str) : List Str :=
  let tl := lowerStr text
  let detected := TOPIC_KEYWORDS.foldl
    (fun acc p => if p.2.any (fun k => decide (k <:+: tl)) then acc ++ [p.1] else acc) []
  if detected = [] then ["general".data] else detected

/-- `getPrimaryTopic` of `smart_chunker.py`: first non-`"general"` topic. -/
def getPrimaryTopic (topics : List Str) : Str :=
  match topics.find? (fun t => decide (t ≠ "general".data)) with
  | some t => t
  | none => "general".data

/-- The `ts.replace('Z', '+00:00')` step of `parseTimestamp`. -/
def replaceZ : Str → Str
  | [] => []
  | c :: rest =>
    if c = 'Z' then '+' :: '0' :: '0' :: ':' :: '0' :: '0' :: replaceZ rest
    else c :: replaceZ rest

/-- The string that `parseTimestamp` hands to `datetime.fromisoformat`:
`Z` is replaced by `+00:00`, and if a `.` occurs the string is truncated at
the first `.` with `+00:00` appended. -/
def preprocessTs (ts : Str) : Str :=
  let ts1 := replaceZ ts
  if ts1.contains '.' then ts1.takeWhile (fun c => c ≠ '.') ++ "+00:00".data
  else ts1

/-- `parseTimestamp` of `smart_chunker.py` on a string input.  On any
unparsable input the bare `except` returns `datetime.now()`, modelled by the
explicit clock value `now`. -/
def parseTimestamp (ts : Str) (now : Int) : Int :=
  match fromisoformat (preprocessTs ts) with
  | some t => t
  | none => now

/-- A chat message as consumed by the chunker (the dict produced by
`loadAndTransformMessages`; the `room_id` entry is not read by the chunker
and is omitted). -/
structure Msg where
  timestamp : Str
  sender : Str
  text : Str
  message_id : Option Str
deriving DecidableEq

/-- The rendered form `f"[{sender}]: {text}"` of a message. -/
def renderMsg (m : Msg) : Str := '[' :: (m.sender ++ (']' :: ':' :: ' ' :: m.text))

/-- The sort key order of `sorted(messages, key=lambda x: x.get('timestamp', ''))`. -/
def msgOrd (a b : Msg) : Prop := strLe a.timestamp b.timestamp = true

instance : DecidableRel msgOrd := fun a b => by unfold msgOrd; infer_instance

instance : IsTotal Msg msgOrd := ⟨fun a b => strLe_total a.timestamp b.timestamp⟩

instance : IsTrans Msg msgOrd := ⟨fun _ _ _ => strLe_trans⟩

/-- A metadata value (Python scalar / list / None) as stored in a chunk's
metadata dict. -/
inductive MVal where
  | s (v : Str)
  | i (v : Int)
  | b (v : Bool)
  | strlist (v : List Str)
  | null
deriving DecidableEq

/-- A chunk as returned by `createChunk`.  The fields mirror the entries of
the Python dict (`chunk_id`, `text`, and the `metadata` sub-dict, rebuilt by
`chunkMetadata` below).  The extra field `msgs` is a ghost field recording
the exact message list the chunk was created from (it is not part of the
Python dict and is used only to state properties; `message_count` is its
length). -/
structure Chunk where
  chunk_id : Str
  text : Str
  channel_id : Str
  timestamp : Str
  topics : List Str
  primary_topic : Str
  is_thread_complete : Bool
  start_time : Str
  end_time : Str
  message_count : Nat
  chunk_text2000 : Str
  msgs : List Msg
deriving DecidableEq

/-- `createChunk` of `smart_chunker.py`.  Returns `none` for an empty
message list (Python returns `None`; the chunker only calls it on non-empty
buffers). -/
def createChunk (messages : List Msg) (channel_id : Str) (index : Nat) : Option Chunk :=
  match messages with
  | [] => none
  | m0 :: _ =>
    let start_time := m0.timestamp
    let end_time := (messages.getLastD m0).timestamp
    let chunk_text := joinWith '\n' (messages.map renderMsg)
    let topics := detectTopics chunk_text
    let primary_topic := getPrimaryTopic topics
    let is_complete := (messages.drop (messages.length - 3)).any (fun m => detectResolution m.text)
    let chunk_date :=
      if start_time.contains 'T' then start_time.takeWhile (fun c => c ≠ 'T')
      else start_time.take 10
    let chunk_id := channel_id ++ ('-' :: chunk_date) ++ ('-' :: natToChars index)
    some { chunk_id := chunk_id
           text := chunk_text
           channel_id := channel_id
           timestamp := chunk_date
           topics := topics
           primary_topic := primary_topic
           is_thread_complete := is_complete
           start_time := start_time
           end_time := end_time
           message_count := messages.length
           chunk_text2000 := chunk_text.take 2000
           msgs := messages }

/-- The loop state of `chunkByConversation`. -/
structure ChunkState where
  chunks : List Chunk
  current_chunk : List Msg
  current_chars : Nat
  last_timestamp : Option Int
  chunk_index : Nat

/-- The `should_split` flag computed for one message by the
`chunkByConversation` loop: time gap, message-count limit, character-budget
limit, or the resolution-then-new-question heuristic. -/
def shouldSplit (gap_minutes : Int) (max_messages max_chars : Nat) (now : Int)
    (st : ChunkState) (msg : Msg) : Bool :=
  let ts := parseTimestamp msg.timestamp now
  let split_gap :=
    match st.last_timestamp with
    | some last => decide (ts - last > gap_minutes * 60)
    | none => false
  let split_count := decide (max_messages ≤ st.current_chunk.length)
  let split_chars := decide (max_chars < st.current_chars + (renderMsg msg).length)
  let split_res :=
    match st.current_chunk.getLast? with
    | some lastMsg =>
      detectResolution lastMsg.text &&
        (msg.text.contains '?' ||
          (match st.last_timestamp with
           | some last => decide (ts - last > 600)
           | none => false))
    | none => false
  split_gap || split_count || split_chars || split_res

/-- One iteration of the `for msg in sorted_messages` loop of
`chunkByConversation`. -/
def chunkStep (channel_id : Str) (gap_minutes : Int) (max_messages max_chars : Nat)
    (now : Int) (st : ChunkState) (msg : Msg) : ChunkState :=
  let ts := parseTimestamp msg.timestamp now
  let msg_text := renderMsg msg
  if shouldSplit gap_minutes max_messages max_chars now st msg && !st.current_chunk.isEmpty then
    { chunks := st.chunks ++ (createChunk st.current_chunk channel_id st.chunk_index).toList
      current_chunk := [msg]
      current_chars := msg_text.length
      last_timestamp := some ts
      chunk_index := st.chunk_index + 1 }
  else
    { chunks := st.chunks
      current_chunk := st.current_chunk ++ [msg]
      current_chars := st.current_chars + msg_text.length
      last_timestamp := some ts
      chunk_index := st.chunk_index }

/-- The final `if current_chunk:` materialization of `chunkByConversation`. -/
def chunkFinalize (channel_id : Str) (st : ChunkState) : List Chunk :=
  if st.current_chunk.isEmpty then st.chunks
  else st.chunks ++ (createChunk st.current_chunk channel_id st.chunk_index).toList

/-- `chunkByConversation` of `smart_chunker.py`.  `now` is the ambient clock
used by `parseTimestamp` for unparsable timestamps.  Messages are first
stably sorted by their raw `timestamp` string (Python `sorted` with a key),
then a single pass maintains the open chunk buffer. -/
def chunkByConversation (now : Int) (messages : List Msg) (channel_id : Str)
    (gap_minutes : Int) (max_messages max_chars : Nat) : List Chunk :=
  if messages.isEmpty then []
  else
    let sorted_messages := messages.insertionSort msgOrd
    chunkFinalize channel_id
      (sorted_messages.foldl (chunkStep channel_id gap_minutes max_messages max_chars now)
        ⟨[], [], 0, none, 0⟩)

/-- Sum of the rendered lengths of a message list (the quantity the loop
variable `current_chars` tracks). -/
def renderedSum (msgs : List Msg) : Nat := (msgs.map (fun m => (renderMsg m).length)).sum

/-- The gap bound between two adjacent messages: elapsed seconds between
their parsed timestamps is at most `gap_minutes * 60`. -/
def gapOk (gap_minutes now : Int) (a b : Msg) : Prop :=
  parseTimestamp b.timestamp now - parseTimestamp a.timestamp now ≤ gap_minutes * 60

/-- The properties every chunk emitted by `chunkByConversation` satisfies
(stated over the ghost message list). -/
def ChunkGood (gap_minutes : Int) (max_messages max_chars : Nat) (now : Int) (c : Chunk) : Prop :=
  c.msgs ≠ [] ∧
  c.message_count = c.msgs.length ∧
  c.msgs.length ≤ max max_messages 1 ∧
  (2 ≤ c.msgs.length → renderedSum c.msgs ≤ max_chars) ∧
  List.Chain' (gapOk gap_minutes now) c.msgs ∧
  c.text = joinWith '\n' (c.msgs.map renderMsg)

/-- The loop invariant of `chunkByConversation`. -/
def ChunkInv (gap_minutes : Int) (max_messages max_chars : Nat) (now : Int) (st : ChunkState) : Prop :=
  st.current_chars = renderedSum st.current_chunk ∧
  (∀ m, st.current_chunk.getLast? = some m →
    st.last_timestamp = some (parseTimestamp m.timestamp now)) ∧
  st.current_chunk.length ≤ max max_messages 1 ∧
  (2 ≤ st.current_chunk.length → renderedSum st.current_chunk ≤ max_chars) ∧
  List.Chain' (gapOk gap_minutes now) st.current_chunk ∧
  (∀ c ∈ st.chunks, ChunkGood gap_minutes max_messages max_chars now c)

/-- Total number of messages accounted for by a loop state. -/
def sumCount (st : ChunkState) : Nat :=
  (st.chunks.map Chunk.message_count).sum + st.current_chunk.length

-- ===========================================================================
-- src/daily_embedding_sync.py
-- ===========================================================================

/-- The per-index result dict of `embedSingle` inside
`getEmbeddingsParallel`. -/
structure EmbResult where
  index : Nat
  embedding : Option (List Int)
  error : Option Str
deriving DecidableEq

/-- `embedSingle` of `getEmbeddingsParallel`: one embedding call with its
exception captured as a per-index error string. -/
def embedSingle (embed : Str → Except Str (List Int)) (index : Nat) (text : Str) : EmbResult :=
  match embed text with
  | .ok e => { index := index, embedding := some e, error := none }
  | .error s => { index := index, embedding := none, error := some s }

/-- `getEmbeddingsParallel` of `daily_embedding_sync.py`.  The worker pool
is modelled by `order`: the list of submitted `(index, text)` tasks in the
order `as_completed` yields them (any permutation of `texts.enum`).  Each
completed future writes its result at `results[result['index']]`. -/
def getEmbeddingsParallel (embed : Str → Except Str (List Int)) (texts : List Str)
    (order : List (Nat × Str)) : List (Option EmbResult) :=
  order.foldl (fun results p => results.set p.1 (some (embedSingle embed p.1 p.2)))
    (List.replicate texts.length none)

/-- A vector as assembled by `processNewFiles` before storage. -/
structure VectorItem where
  key : Str
  embedding : List Int
  metadata : List (Str × MVal)
deriving DecidableEq

/-- The `vector_data` dict built for one vector inside `storeVectorsBatch`:
the `metadata` entry is present only when the metadata dict is truthy
(non-empty). -/
structure VData where
  key : Str
  data : List Int
  metadata : Option (List (Str × MVal))
deriving DecidableEq

/-- Build the `vector_data` dict for one vector. -/
def vectorData (v : VectorItem) : VData :=
  { key := v.key
    data := v.embedding
    metadata := if v.metadata.isEmpty then none else some v.metadata }

/-- Number of batches of `range(0, n, bs)`. -/
def numBatches (n bs : Nat) : Nat := (n + bs - 1) / bs

/-- The batch starting offsets `range(0, n, bs)`. -/
def batchOffsets (n bs : Nat) : List Nat := List.range' 0 (numBatches n bs) bs

/-- `storeVectorsBatch` of `daily_embedding_sync.py`.  `put` is the
`s3vectors.put_vectors` capability (one downstream call per batch; it either
accepts the batch or fails).  Returns the pair (`stored`, `errors`), an
error carrying the failing batch's starting offset. -/
def storeVectorsBatch (put : List VData → Except Str Unit) (vectors : List VectorItem)
    (batch_size : Nat) : Nat × List (Nat × Str) :=
  (batchOffsets vectors.length batch_size).foldl
    (fun acc i =>
      let batch := (vectors.drop i).take batch_size
      match put (batch.map vectorData) with
      | .ok _ => (acc.1 + batch.length, acc.2)
      | .error e => (acc.1, acc.2 ++ [(i, e)]))
    (0, [])

/-- A discovered source file (`getNewChatFiles` entry; the `last_modified`
field is never read downstream and is omitted). -/
structure FileInfo where
  key : Str
  room_id : Str
  date : Str
deriving DecidableEq

/-- The sort key order of `sorted(files, key=lambda f: f.get('date', ''))`. -/
def dateOrd (a b : FileInfo) : Prop := strLe a.date b.date = true

instance : DecidableRel dateOrd := fun a b => by unfold dateOrd; infer_instance

instance : IsTotal FileInfo dateOrd := ⟨fun a b => strLe_total a.date b.date⟩

instance : IsTrans FileInfo dateOrd := ⟨fun _ _ _ => strLe_trans⟩

/-- Model of Python `filename.rsplit('_', 2)`. -/
def rsplit2Underscore (s : Str) : List Str :=
  let ps := splitOnChar '_' s
  if ps.length ≤ 3 then ps
  else joinWith '_' (ps.take (ps.length - 2)) :: ps.drop (ps.length - 2)

/-- The per-key body of the `getNewChatFiles` listing loop: keep keys ending
in `_chat.json`, split the filename after the last `/`, and read
`room_id = parts[0]`, `date = parts[-2]`. -/
def parseChatKey (key : Str) : Option FileInfo :=
  if decide ("_chat.json".data <:+ key) then
    let filename := (splitOnChar '/' key).getLastD []
    let parts := rsplit2Underscore filename
    if 2 ≤ parts.length then
      some { key := key, room_id := parts.headD [], date := parts.getD (parts.length - 2) [] }
    else none
  else none

/-- `getNewChatFiles` of `daily_embedding_sync.py` applied to the keys the
paginator lists.  The date filter mirrors `if since_date and file_date <=
since_date: continue` (note Python truthiness: an empty `since_date`
disables the filter). -/
def getNewChatFiles (keys : List Str) (since_date : Option Str) : List FileInfo :=
  keys.filterMap (fun k =>
    match parseChatKey k with
    | none => none
    | some fi =>
      match since_date with
      | some d => if !d.isEmpty && strLe fi.date d then none else some fi
      | none => some fi)

/-- A raw Webex message record as read from a chat file. -/
structure RawMsg where
  created : Str
  personEmail : Option Str
  personDisplayName : Option Str
  text : Str
  id : Option Str
deriving DecidableEq

/-- The transformation loop of `loadAndTransformMessages`: drop messages
with falsy text, map fields (the `room_id` entry is not read downstream and
is omitted). -/
def transformMessages (raw : List RawMsg) : List Msg :=
  (raw.filter (fun m => !m.text.isEmpty)).map (fun m =>
    { timestamp := m.created
      sender := m.personEmail.getD (m.personDisplayName.getD "Unknown".data)
      text := m.text
      message_id := m.id })

/-- `loadAndTransformMessages` of `daily_embedding_sync.py`.  `load` is the
S3 `get_object` + JSON decode capability; its failure (the `except` branch)
returns the empty list. -/
def loadAndTransformMessages (load : Str → Option (List RawMsg)) (key : Str) : List Msg :=
  match load key with
  | none => []
  | some raw => transformMessages raw

/-- One iteration of the deduplication loop of `processNewFiles`: the
accumulator is the pair (`seen_ids`, `unique_messages`); a message with a
truthy `message_id` is appended only on its first occurrence, a message
with a falsy (absent or empty) `message_id` is always appended. -/
def dedupeStep (acc : List Str × List Msg) (msg : Msg) : List Str × List Msg :=
  match msg.message_id with
  | some mid =>
    if !mid.isEmpty then
      if mid ∈ acc.1 then acc else (acc.1 ++ [mid], acc.2 ++ [msg])
    else (acc.1, acc.2 ++ [msg])
  | none => (acc.1, acc.2 ++ [msg])

/-- The deduplication step of `processNewFiles`. -/
def dedupeMessages (messages : List Msg) : List Msg :=
  (messages.foldl dedupeStep ([], [])).2

/-- Recursive formulation of the deduplication loop (same algorithm as
`dedupeMessages`, carrying the `seen` set; used to reason by induction). -/
def dedupeRec (seen : List Str) : List Msg → List Msg
  | [] => []
  | m :: rest =>
    match m.message_id with
    | some mid =>
      if mid.isEmpty then m :: dedupeRec seen rest
      else if mid ∈ seen then dedupeRec seen rest
      else m :: dedupeRec (seen ++ [mid]) rest
    | none => m :: dedupeRec seen rest

/-- A falsy `message_id` in the Python sense: absent (`None`) or the empty
string. -/
def idFalsy (m : Msg) : Bool :=
  match m.message_id with
  | none => true
  | some s => s.isEmpty

/-- The chunk's `metadata` dict as built by `createChunk`. -/
def chunkMetadata (c : Chunk) : List (Str × MVal) :=
  [("type".data, .s "chat_history".data),
   ("channel_id".data, .s c.channel_id),
   ("timestamp".data, .s c.timestamp),
   ("topics".data, .strlist c.topics),
   ("primary_topic".data, .s c.primary_topic),
   ("is_thread_complete".data, .b c.is_thread_complete),
   ("is_verified".data, .b false),
   ("priority".data, .i 0),
   ("start_time".data, .s c.start_time),
   ("end_time".data, .s c.end_time),
   ("message_count".data, .i c.message_count),
   ("chunk_text".data, .s c.chunk_text2000),
   ("corrects_vector_key".data, .null),
   ("original_question".data, .null),
   ("verified_answer".data, .null)]

/-- An entry of the driver's `results['errors']` list. -/
inductive ErrRec where
  | chunkErr (file : Str) (chunk_id : Str) (err : Str)
  | batchErr (batch_start : Nat) (err : Str)
deriving DecidableEq

/-- The external capabilities and configuration consumed by the sync
driver. `remaining` models `context.get_remaining_time_in_millis`, sampled
before the `k`-th file of the loop; `none` models an absent context. -/
structure SyncEnv where
  load : Str → Option (List RawMsg)
  embed : Str → Except Str (List Int)
  put : List VData → Except Str Unit
  now : Int
  remaining : Option (Nat → Int)
  project_id : Str
  batch_size : Nat

/-- The driver state: the SSM cursor plus the accumulated result summary. -/
structure SyncState where
  cursor : Option Str
  files_processed : Nat
  vectors_stored : Nat
  errors : List ErrRec
deriving DecidableEq

/-- The body of the per-file loop of `processNewFiles` for one file: load,
deduplicate, chunk, embed (the worker pool is replaced by its proved
order-independent per-index results, see `getEmbeddingsParallel_spec`),
assemble vectors with sanitized metadata, store in batches, then
unconditionally bump `files_processed` and checkpoint the file's date.  The
`continue` branches (no messages / no chunks) leave the state unchanged.
All modelled operations are total, so the enclosing `except` branch of the
Python loop is unreachable in the model. -/
def processFile (env : SyncEnv) (st : SyncState) (fi : FileInfo) : SyncState :=
  let messages := loadAndTransformMessages env.load fi.key
  if messages.isEmpty then st
  else
    let unique_messages := dedupeMessages messages
    let chunks := chunkByConversation env.now unique_messages fi.room_id 30 50 4000
    if chunks.isEmpty then st
    else
      let texts := chunks.map Chunk.text
      let embedding_results := texts.enum.map (fun p => embedSingle env.embed p.1 p.2)
      let assembled := (chunks.zip embedding_results).foldl
        (fun (acc : List VectorItem × List ErrRec) ce =>
          match ce.2.error with
          | some e =>
            if e.isEmpty then
              (acc.1 ++ [{ key := ce.1.chunk_id, embedding := ce.2.embedding.getD [],
                           metadata := (chunkMetadata ce.1
                             ++ [("project_id".data, MVal.s env.project_id),
                                 ("source".data, MVal.s "webex".data)]).filter
                             (fun kv => decide (kv.2 ≠ MVal.null)) }], acc.2)
            else (acc.1, acc.2 ++ [ErrRec.chunkErr fi.key ce.1.chunk_id e])
          | none =>
            (acc.1 ++ [{ key := ce.1.chunk_id, embedding := ce.2.embedding.getD [],
                         metadata := (chunkMetadata ce.1
                           ++ [("project_id".data, MVal.s env.project_id),
                               ("source".data, MVal.s "webex".data)]).filter
                           (fun kv => decide (kv.2 ≠ MVal.null)) }], acc.2))
        ([], [])
      let vectors_to_store := assembled.1
      let errs1 := st.errors ++ assembled.2
      if vectors_to_store.isEmpty then
        { cursor := some fi.date
          files_processed := st.files_processed + 1
          vectors_stored := st.vectors_stored
          errors := errs1 }
      else
        let store_result := storeVectorsBatch env.put vectors_to_store env.batch_size
        { cursor := some fi.date
          files_processed := st.files_processed + 1
          vectors_stored := st.vectors_stored + store_result.1
          errors := errs1 ++ store_result.2.map (fun p => ErrRec.batchErr p.1 p.2) }

/-- The per-file loop of `processNewFiles` with the remaining-time check:
if a context is present and fewer than 30000 ms remain before the `k`-th
file, the loop stops early (the `break`). -/
def processLoop (env : SyncEnv) : Nat → SyncState → List FileInfo → SyncState
  | _, st, [] => st
  | k, st, fi :: rest =>
    match env.remaining with
    | some rem =>
      if rem k < 30000 then st
      else processLoop env (k + 1) (processFile env st fi) rest
    | none => processLoop env (k + 1) (processFile env st fi) rest

/-- `processNewFiles` of `daily_embedding_sync.py`: sort the discovered
files ascending by date, then run the per-file loop. -/
def processNewFiles (env : SyncEnv) (files : List FileInfo) (st : SyncState) : SyncState :=
  processLoop env 0 st (files.insertionSort dateOrd)

/-- One handler invocation restricted to its core: read the cursor,
discover new files, process them. `keys` is the S3 listing under the
`feed/` prefix. -/
def runSync (env : SyncEnv) (keys : List Str) (st : SyncState) : SyncState :=
  processNewFiles env (getNewChatFiles keys st.cursor) st

/-- Order on cursor values: an absent cursor precedes everything; present
cursors compare by the string order used for dates. -/
def cursorLe : Option Str → Option Str → Prop
  | none, _ => True
  | some _, none => False
  | some a, some b => strLe a b = true

/-- A source file completes its per-file body (no `continue` branch is
taken): it loads a non-empty message list and produces a non-empty chunk
list. -/
def FileCompletes (env : SyncEnv) (fi : FileInfo) : Prop :=
  loadAndTransformMessages env.load fi.key ≠ [] ∧
  chunkByConversation env.now (dedupeMessages (loadAndTransformMessages env.load fi.key))
    fi.room_id 30 50 4000 ≠ []

instance (env : SyncEnv) (fi : FileInfo) : Decidable (FileCompletes env fi) := by
  unfold FileCompletes
  infer_instance

/-- A concrete environment whose external capabilities all succeed: every
source loads one message, every embedding call succeeds, every batch write
is accepted, no execution-time context is present. -/
def happyEnv : SyncEnv :=
  { load := fun _ => some
      [⟨"2024-01-01T10:00:00".data, some "u".data, none, "hello".data, some "m1".data⟩]
    embed := fun _ => .ok [1]
    put := fun _ => .ok ()
    now := 0
    remaining := none
    project_id := "p".data
    batch_size := 50 }

/-- The same environment with a vector-store writer that fails every
batch. -/
def failingPutEnv : SyncEnv :=
  { happyEnv with put := fun _ => .error "write failed".data }

-- ===========================================================================
-- Helper lemmas: chunker loop invariant
-- ===========================================================================

theorem joinWith_length (sep : Char) (l : List Str) (h : l ≠ []) :
    (joinWith sep l).length + 1 = (l.map List.length).sum + l.length := by
  induction l with
  | nil => cases h rfl
  | cons x rest ih =>
    cases rest with
    | nil => simp [joinWith]
    | cons y t =>
      have := ih (by simp)
      simp only [joinWith, List.length_append, List.length_cons, List.map_cons,
        List.sum_cons] at *
      omega

theorem renderedSum_append_single (l : List Msg) (m : Msg) :
    renderedSum (l ++ [m]) = renderedSum l + (renderMsg m).length := by
  simp [renderedSum]

theorem createChunk_some (messages : List Msg) (cid : Str) (idx : Nat) (h : messages ≠ []) :
    ∃ c, createChunk messages cid idx = some c ∧ c.msgs = messages ∧
      c.message_count = messages.length ∧
      c.text = joinWith '\n' (messages.map renderMsg) := by
  cases messages with
  | nil => cases h rfl
  | cons m0 rest => exact ⟨_, rfl, rfl, rfl, rfl⟩


theorem of_shouldSplit_false {g : Int} {mm mc : Nat} {now : Int} {st : ChunkState} {msg : Msg}
    (h : shouldSplit g mm mc now st msg = false) :
    st.current_chunk.length < mm ∧
    st.current_chars + (renderMsg msg).length ≤ mc ∧
    (∀ last, st.last_timestamp = some last →
      parseTimestamp msg.timestamp now - last ≤ g * 60) := by
  unfold shouldSplit at h
  rcases hlast : st.last_timestamp with _ | last
  · rw [hlast] at h
    simp only [Bool.or_eq_false_iff] at h
    refine ⟨lt_of_not_le (of_decide_eq_false h.1.1.2), le_of_not_lt (of_decide_eq_false h.1.2), ?_⟩
    intro l hl
    cases hl
  · rw [hlast] at h
    simp only [Bool.or_eq_false_iff] at h
    refine ⟨lt_of_not_le (of_decide_eq_false h.1.1.2), le_of_not_lt (of_decide_eq_false h.1.2), ?_⟩
    intro l hl
    injection hl with hl
    subst hl
    exact le_of_not_lt (of_decide_eq_false h.1.1.1)

theorem chunkStep_chunks_shape (cid : Str) (g : Int) (mm mc : Nat) (now : Int)
    (st : ChunkState) (msg : Msg) :
    (chunkStep cid g mm mc now st msg).chunks = st.chunks ∨
    (chunkStep cid g mm mc now st msg).chunks
      = st.chunks ++ (createChunk st.current_chunk cid st.chunk_index).toList := by
  unfold chunkStep
  by_cases hsp : (shouldSplit g mm mc now st msg && !st.current_chunk.isEmpty) = true
  · rw [if_pos hsp]; right; rfl
  · rw [if_neg hsp]; left; rfl

theorem chunkStep_inv (cid : Str) (g : Int) (mm mc : Nat) (now : Int)
    (st : ChunkState) (msg : Msg) (h : ChunkInv g mm mc now st) :
    ChunkInv g mm mc now (chunkStep cid g mm mc now st msg) ∧
    sumCount (chunkStep cid g mm mc now st msg) = sumCount st + 1 := by
  obtain ⟨h1, h2, h3, h4, h5, h6⟩ := h
  unfold chunkStep
  by_cases hsp : (shouldSplit g mm mc now st msg && !st.current_chunk.isEmpty) = true
  · rw [if_pos hsp]
    have hne : st.current_chunk ≠ [] := by
      rw [Bool.and_eq_true] at hsp
      intro hcontra
      simp [hcontra] at hsp
    obtain ⟨c, hc, hcm, hcc, hct⟩ := createChunk_some st.current_chunk cid st.chunk_index hne
    constructor
    · refine ⟨by simp [renderedSum], ?_, ?_, ?_, ?_, ?_⟩
      · intro m hm
        rw [List.getLast?_singleton, Option.some_inj] at hm
        subst hm; rfl
      · simp
      · intro habs; simp at habs
      · simp
      · intro c' hc'
        rw [hc, Option.toList_some, List.mem_append, List.mem_singleton] at hc'
        rcases hc' with hc' | hc'
        · exact h6 c' hc'
        · subst hc'
          exact ⟨by rw [hcm]; exact hne, by rw [hcc, hcm], by rw [hcm]; exact h3,
            by rw [hcm]; exact fun h2' => h1 ▸ h4 h2', by rw [hcm]; exact h5, by rw [hcm, hct]⟩
    · simp only [sumCount, hc, Option.toList_some, List.map_append, List.map_cons,
        List.map_nil, List.sum_append, List.sum_cons, List.sum_nil, List.length_singleton]
      rw [hcc]
      omega
  · rw [if_neg hsp]
    by_cases hempty : st.current_chunk = []
    · constructor
      · refine ⟨?_, ?_, ?_, ?_, ?_, h6⟩
        · rw [hempty] at h1 ⊢
          simp [renderedSum] at h1 ⊢
          exact h1
        · intro m hm
          rw [hempty] at hm
          rw [List.nil_append, List.getLast?_singleton, Option.some_inj] at hm
          subst hm; rfl
        · rw [hempty]; simp
        · intro habs; rw [hempty] at habs; simp at habs
        · rw [hempty]; simp
      · simp [sumCount, hempty]
    · have hss : shouldSplit g mm mc now st msg = false := by
        cases hv : shouldSplit g mm mc now st msg
        · rfl
        · refine absurd ?_ hsp
          rw [hv, Bool.and_eq_true]
          exact ⟨rfl, by simp [hempty]⟩
      obtain ⟨hcnt, hchars, hgap⟩ := of_shouldSplit_false hss
      obtain ⟨lastMsg, hlastMsg⟩ :=
        Option.isSome_iff_exists.mp (List.getLast?_isSome.mpr hempty)
      constructor
      · refine ⟨?_, ?_, ?_, ?_, ?_, h6⟩
        · simp [renderedSum_append_single, h1]
        · intro m hm
          rw [List.getLast?_concat, Option.some_inj] at hm
          subst hm; rfl
        · simp only [List.length_append, List.length_singleton]
          omega
        · intro _
          rw [renderedSum_append_single, ← h1]
          exact hchars
        · rw [List.chain'_append]
          refine ⟨h5, List.chain'_singleton msg, ?_⟩
          intro x hx y hy
          simp only [List.head?_cons, Option.mem_def, Option.some_inj] at hy
          subst hy
          rw [Option.mem_def, hlastMsg, Option.some_inj] at hx
          subst hx
          exact hgap _ (h2 _ hlastMsg)
      · simp only [sumCount, List.length_append, List.length_singleton]
        omega

theorem chunkFold_inv (cid : Str) (g : Int) (mm mc : Nat) (now : Int)
    (l : List Msg) (st : ChunkState) (h : ChunkInv g mm mc now st) :
    ChunkInv g mm mc now (l.foldl (chunkStep cid g mm mc now) st) ∧
    sumCount (l.foldl (chunkStep cid g mm mc now) st) = sumCount st + l.length := by
  induction l generalizing st with
  | nil => simpa using h
  | cons m rest ih =>
    obtain ⟨hi, hs⟩ := chunkStep_inv cid g mm mc now st m h
    obtain ⟨hi', hs'⟩ := ih _ hi
    rw [List.foldl_cons]
    refine ⟨hi', ?_⟩
    rw [hs', hs, List.length_cons]
    omega

theorem chunkByConversation_inv (now : Int) (messages : List Msg) (cid : Str)
    (g : Int) (mm mc : Nat) :
    (∀ c ∈ chunkByConversation now messages cid g mm mc, ChunkGood g mm mc now c) ∧
    ((chunkByConversation now messages cid g mm mc).map Chunk.message_count).sum
      = messages.length := by
  unfold chunkByConversation
  by_cases he : messages.isEmpty
  · rw [if_pos he]
    rw [List.isEmpty_iff] at he
    subst he
    simp
  · rw [if_neg he]
    have hinit : ChunkInv g mm mc now ⟨[], [], 0, none, 0⟩ := by
      refine ⟨by simp [renderedSum], ?_, by simp, by simp, List.chain'_nil, by simp⟩
      intro m hm
      simp at hm
    obtain ⟨hf, hsum⟩ :=
      chunkFold_inv cid g mm mc now (messages.insertionSort msgOrd) ⟨[], [], 0, none, 0⟩ hinit
    obtain ⟨f1, f2, f3, f4, f5, f6⟩ := hf
    have hlen : (messages.insertionSort msgOrd).length = messages.length :=
      (List.perm_insertionSort msgOrd messages).length_eq
    simp only [sumCount, List.map_nil, List.sum_nil, List.length_nil, Nat.zero_add,
      Nat.add_zero] at hsum
    unfold chunkFinalize
    by_cases hcur :
        ((messages.insertionSort msgOrd).foldl (chunkStep cid g mm mc now)
          ⟨[], [], 0, none, 0⟩).current_chunk.isEmpty
    · rw [if_pos hcur]
      rw [List.isEmpty_iff] at hcur
      rw [hcur] at hsum
      simp only [List.length_nil, Nat.add_zero] at hsum
      exact ⟨f6, by rw [hsum, hlen]⟩
    · rw [if_neg hcur]
      have hne : ((messages.insertionSort msgOrd).foldl (chunkStep cid g mm mc now)
          ⟨[], [], 0, none, 0⟩).current_chunk ≠ [] := by
        intro hcontra
        rw [← List.isEmpty_iff] at hcontra
        exact hcur hcontra
      obtain ⟨c, hc, hcm, hcc, hct⟩ := createChunk_some _ cid _ hne
      rw [hc, Option.toList_some]
      constructor
      · intro c' hc'
        rw [List.mem_append, List.mem_singleton] at hc'
        rcases hc' with hc' | hc'
        · exact f6 c' hc'
        · subst hc'
          exact ⟨by rw [hcm]; exact hne, by rw [hcc, hcm], by rw [hcm]; exact f3,
            by rw [hcm]; exact fun h2' => f1 ▸ f4 h2', by rw [hcm]; exact f5, by rw [hcm, hct]⟩
      · rw [List.map_append, List.sum_append]
        simp only [List.map_cons, List.map_nil, List.sum_cons, List.sum_nil]
        rw [hcc]
        omega

theorem parseTimestamp_eq_of_isSome {ts : Str}
    (h : (fromisoformat (preprocessTs ts)).isSome) (now1 now2 : Int) :
    parseTimestamp ts now1 = parseTimestamp ts now2 := by
  unfold parseTimestamp
  obtain ⟨v, hv⟩ := Option.isSome_iff_exists.mp h
  rw [hv]

theorem chunkStep_now_congr (cid : Str) (g : Int) (mm mc : Nat) (now1 now2 : Int)
    (st : ChunkState) (msg : Msg)
    (h : (fromisoformat (preprocessTs msg.timestamp)).isSome) :
    chunkStep cid g mm mc now1 st msg = chunkStep cid g mm mc now2 st msg := by
  have hp : parseTimestamp msg.timestamp now1 = parseTimestamp msg.timestamp now2 :=
    parseTimestamp_eq_of_isSome h now1 now2
  simp only [chunkStep, shouldSplit, hp]

-- ===========================================================================
-- Claim C2
-- ===========================================================================

/-- Claim C2, counterexample.  The claim asserts that two calls of
`chunkByConversation` on the same input and configuration yield identical
results even for inputs containing unparsable timestamps.  But the
"sentinel" substituted for an unparsable timestamp is `datetime.now()`, so
the result depends on the wall clock: for the messages below (one parsable
timestamp, one unparsable), a call at clock `0` yields one chunk while a
call one day after the parsable instant yields two. -/
theorem chunk_determinism_cex :
    (chunkByConversation 0
        [⟨"2024-01-02T00:00:00".data, "a".data, "hi".data, none⟩,
         ⟨"x".data, "b".data, "ok".data, none⟩] "r".data 30 50 4000).length = 1 ∧
    (chunkByConversation (parseTimestamp "2024-01-02T00:00:00".data 0 + 86400)
        [⟨"2024-01-02T00:00:00".data, "a".data, "hi".data, none⟩,
         ⟨"x".data, "b".data, "ok".data, none⟩] "r".data 30 50 4000).length = 2 ∧
    chunkByConversation 0
        [⟨"2024-01-02T00:00:00".data, "a".data, "hi".data, none⟩,
         ⟨"x".data, "b".data, "ok".data, none⟩] "r".data 30 50 4000
      ≠ chunkByConversation (parseTimestamp "2024-01-02T00:00:00".data 0 + 86400)
        [⟨"2024-01-02T00:00:00".data, "a".data, "hi".data, none⟩,
         ⟨"x".data, "b".data, "ok".data, none⟩] "r".data 30 50 4000 := by
  refine ⟨by decide, by decide, by decide⟩

/-- Claim C2 (amended): for a fixed message sequence and segmentation
configuration in which every message's timestamp parses (including the
fractional-second and `Z`-suffixed forms, which the parser tolerates),
`chunkByConversation` is independent of the clock, so calling it twice
yields identical results: the same chunk boundaries, `chunk_id`s and topic
tags.  On unparsable timestamps the current wall-clock time is substituted
without raising, so across two calls the result may drift (see the
counterexample). -/
theorem chunkByConversation_deterministic (now1 now2 : Int) (messages : List Msg)
    (cid : Str) (g : Int) (mm mc : Nat)
    (h : ∀ m ∈ messages, (fromisoformat (preprocessTs m.timestamp)).isSome) :
    chunkByConversation now1 messages cid g mm mc
      = chunkByConversation now2 messages cid g mm mc := by
  unfold chunkByConversation
  by_cases he : messages.isEmpty
  · rw [if_pos he, if_pos he]
  · rw [if_neg he, if_neg he]
    have hmem : ∀ m ∈ messages.insertionSort msgOrd,
        (fromisoformat (preprocessTs m.timestamp)).isSome :=
      fun m hm => h m ((List.mem_insertionSort msgOrd).mp hm)
    have hfold : ∀ st, (messages.insertionSort msgOrd).foldl (chunkStep cid g mm mc now1) st
        = (messages.insertionSort msgOrd).foldl (chunkStep cid g mm mc now2) st := by
      generalize messages.insertionSort msgOrd = l at hmem
      induction l with
      | nil => intro st; rfl
      | cons x xs ih =>
        intro st
        rw [List.foldl_cons, List.foldl_cons,
          chunkStep_now_congr cid g mm mc now1 now2 st x (hmem x (by simp))]
        exact ih (fun m hm => hmem m (by simp [hm])) _
    exact congrArg (chunkFinalize cid) (hfold _)

/-- Witness for `chunkByConversation_deterministic`: a `Z`-suffixed and a
fractional-second timestamp both parse, and two calls at different clocks
agree. -/
theorem chunkByConversation_deterministic_witness :
    chunkByConversation 0
        [⟨"2024-01-01T10:00:00Z".data, "a".data, "hi".data, none⟩,
         ⟨"2024-01-01T10:05:00.123456".data, "b".data, "ok".data, none⟩] "r".data 30 50 4000
      = chunkByConversation 987654321
        [⟨"2024-01-01T10:00:00Z".data, "a".data, "hi".data, none⟩,
         ⟨"2024-01-01T10:05:00.123456".data, "b".data, "ok".data, none⟩] "r".data 30 50 4000 :=
  chunkByConversation_deterministic 0 987654321
    [⟨"2024-01-01T10:00:00Z".data, "a".data, "hi".data, none⟩,
     ⟨"2024-01-01T10:05:00.123456".data, "b".data, "ok".data, none⟩]
    "r".data 30 50 4000 (by decide)

-- ===========================================================================
-- Claims C3, C4, C5
-- ===========================================================================

/-- Claim C3, counterexample.  First part: with `max_chars = 12`, two
messages each rendering to 6 characters are kept in one chunk (the budget
counts `6 + 6 = 12 ≤ 12`), but the chunk's text joins the rendered forms
with a newline, so its length is `13 > max_chars` although the chunk holds
two messages (not a permitted oversize singleton).  Second part: with
`max_messages = 0` a chunk still holds one message, violating
`message_count ≤ max_messages`. -/
theorem chunk_size_cex :
    ((chunkByConversation 0
        [⟨"2024-01-01T10:00:00".data, "s".data, "a".data, none⟩,
         ⟨"2024-01-01T10:00:00".data, "s".data, "b".data, none⟩] "r".data 30 50 12).map
      (fun c => (c.message_count, c.text.length))) = [(2, 13)] ∧
    ((chunkByConversation 0
        [⟨"2024-01-01T10:00:00".data, "s".data, "a".data, none⟩] "r".data 30 0 4000).map
      Chunk.message_count) = [1] :=
  ⟨by decide, by decide⟩

/-- Claim C3 (amended): for `max_messages ≥ 1`, every chunk produced by
`chunkByConversation` satisfies `message_count ≤ max_messages`, and the
rendered character length of the chunk's text, not counting the
`message_count - 1` newline separators inserted between messages, is at
most `max_chars` (stated additively: `text.length + 1 ≤ max_chars +
message_count`), except that a chunk consisting of exactly one message may
exceed the character budget as a singleton. -/
theorem chunk_size_bounds (now : Int) (messages : List Msg) (cid : Str)
    (g : Int) (mm mc : Nat) (hmm : 1 ≤ mm) :
    ∀ c ∈ chunkByConversation now messages cid g mm mc,
      c.message_count ≤ mm ∧
      (c.message_count = 1 ∨ c.text.length + 1 ≤ mc + c.message_count) := by
  intro c hc
  obtain ⟨g1, g2, g3, g4, g5, g6⟩ := (chunkByConversation_inv now messages cid g mm mc).1 c hc
  have hmax : max mm 1 = mm := Nat.max_eq_left hmm
  refine ⟨by rw [g2]; rw [hmax] at g3; exact g3, ?_⟩
  rcases Nat.lt_or_ge c.msgs.length 2 with hlt | hge
  · left
    have hpos : 0 < c.msgs.length := List.length_pos.mpr g1
    rw [g2]
    omega
  · right
    have hsum := g4 hge
    have hlen := joinWith_length '\n' (c.msgs.map renderMsg) (by simp [g1])
    rw [g6, g2]
    have hms : (List.map List.length (c.msgs.map renderMsg)).sum = renderedSum c.msgs := by
      simp [renderedSum, List.map_map]
      rfl
    rw [hms] at hlen
    have hml : (c.msgs.map renderMsg).length = c.msgs.length := List.length_map _ _
    omega

/-- Witness for `chunk_size_bounds` at a concrete input. -/
theorem chunk_size_bounds_witness :
    ((chunkByConversation 0
        [⟨"2024-01-01T10:00:00".data, "s".data, "a".data, none⟩,
         ⟨"2024-01-01T10:00:00".data, "s".data, "b".data, none⟩] "r".data 30 50 4000).headD
      ⟨[], [], [], [], [], [], false, [], [], 0, [], []⟩).message_count ≤ 50 ∧
    (((chunkByConversation 0
        [⟨"2024-01-01T10:00:00".data, "s".data, "a".data, none⟩,
         ⟨"2024-01-01T10:00:00".data, "s".data, "b".data, none⟩] "r".data 30 50 4000).headD
      ⟨[], [], [], [], [], [], false, [], [], 0, [], []⟩).message_count = 1 ∨
      ((chunkByConversation 0
        [⟨"2024-01-01T10:00:00".data, "s".data, "a".data, none⟩,
         ⟨"2024-01-01T10:00:00".data, "s".data, "b".data, none⟩] "r".data 30 50 4000).headD
      ⟨[], [], [], [], [], [], false, [], [], 0, [], []⟩).text.length + 1 ≤ 4000 +
      ((chunkByConversation 0
        [⟨"2024-01-01T10:00:00".data, "s".data, "a".data, none⟩,
         ⟨"2024-01-01T10:00:00".data, "s".data, "b".data, none⟩] "r".data 30 50 4000).headD
      ⟨[], [], [], [], [], [], false, [], [], 0, [], []⟩).message_count) :=
  chunk_size_bounds 0
    [⟨"2024-01-01T10:00:00".data, "s".data, "a".data, none⟩,
     ⟨"2024-01-01T10:00:00".data, "s".data, "b".data, none⟩] "r".data 30 50 4000
    (by decide) _ (by decide)

/-- Claim C4: for every input, the sum over all chunks of `message_count`
equals the number of input messages (no message is dropped or duplicated);
the empty input yields an empty chunk sequence, and since every processed
message is accounted for, a non-empty trailing open chunk is always
materialized. -/
theorem chunk_completeness (now : Int) (messages : List Msg) (cid : Str)
    (g : Int) (mm mc : Nat) :
    ((chunkByConversation now messages cid g mm mc).map Chunk.message_count).sum
      = messages.length ∧
    (messages = [] → chunkByConversation now messages cid g mm mc = []) := by
  refine ⟨(chunkByConversation_inv now messages cid g mm mc).2, ?_⟩
  intro h
  subst h
  rfl

/-- Witness for `chunk_completeness` at two concrete inputs (a non-empty
input of three messages and the empty input). -/
theorem chunk_completeness_witness :
    ((chunkByConversation 0
        [⟨"2024-01-01T10:00:00".data, "a".data, "hi".data, none⟩,
         ⟨"2024-01-01T11:00:00".data, "b".data, "yo".data, none⟩,
         ⟨"2024-01-01T11:01:00".data, "a".data, "ok".data, none⟩] "r".data 30 50 4000).map
      Chunk.message_count).sum = 3 ∧
    chunkByConversation 0 ([] : List Msg) "r".data 30 50 4000 = [] := by
  refine ⟨?_, (chunk_completeness 0 [] "r".data 30 50 4000).2 rfl⟩
  have h := (chunk_completeness 0
    [⟨"2024-01-01T10:00:00".data, "a".data, "hi".data, none⟩,
     ⟨"2024-01-01T11:00:00".data, "b".data, "yo".data, none⟩,
     ⟨"2024-01-01T11:01:00".data, "a".data, "ok".data, none⟩] "r".data 30 50 4000).1
  simpa using h

/-- Claim C5: within every chunk produced by `chunkByConversation`, every
pair of adjacent messages has parsed timestamps at most `gap_minutes`
minutes (`gap_minutes * 60` seconds) apart. -/
theorem chunk_gap_property (now : Int) (messages : List Msg) (cid : Str)
    (g : Int) (mm mc : Nat) :
    ∀ c ∈ chunkByConversation now messages cid g mm mc,
      List.Chain' (gapOk g now) c.msgs :=
  fun c hc => ((chunkByConversation_inv now messages cid g mm mc).1 c hc).2.2.2.2.1

/-- Witness for `chunk_gap_property` at a concrete input (two messages five
minutes apart end up in the same chunk and satisfy the gap bound). -/
theorem chunk_gap_property_witness :
    List.Chain' (gapOk 30 0)
      ((chunkByConversation 0
          [⟨"2024-01-01T10:00:00".data, "a".data, "hi".data, none⟩,
           ⟨"2024-01-01T10:05:00".data, "b".data, "yo".data, none⟩] "r".data 30 50 4000).headD
        ⟨[], [], [], [], [], [], false, [], [], 0, [], []⟩).msgs :=
  chunk_gap_property 0
    [⟨"2024-01-01T10:00:00".data, "a".data, "hi".data, none⟩,
     ⟨"2024-01-01T10:05:00".data, "b".data, "yo".data, none⟩] "r".data 30 50 4000
    _ (by decide)

-- ===========================================================================
-- Claim C6
-- ===========================================================================

/-- Claim C6: if the open chunk is non-empty, its last appended message
contains a resolution phrase, and the incoming message's raw text contains
a question mark or arrived more than 10 minutes (600 seconds) after the
last message, then the loop step forces a boundary before the incoming
message: the open chunk is materialized and the new open chunk holds
exactly the incoming message — with no assumption that a size or
`gap_minutes` limit was hit. -/
theorem resolution_forces_split (cid : Str) (g : Int) (mm mc : Nat) (now : Int)
    (st : ChunkState) (msg : Msg) (lastMsg : Msg)
    (hlast : st.current_chunk.getLast? = some lastMsg)
    (hres : detectResolution lastMsg.text = true)
    (htrig : msg.text.contains '?' = true ∨
      (∃ last, st.last_timestamp = some last ∧
        600 < parseTimestamp msg.timestamp now - last)) :
    (chunkStep cid g mm mc now st msg).chunks
      = st.chunks ++ (createChunk st.current_chunk cid st.chunk_index).toList ∧
    (chunkStep cid g mm mc now st msg).current_chunk = [msg] ∧
    (chunkStep cid g mm mc now st msg).chunk_index = st.chunk_index + 1 := by
  have hne : st.current_chunk ≠ [] := by
    intro h
    rw [h] at hlast
    simp at hlast
  have hsp : shouldSplit g mm mc now st msg = true := by
    unfold shouldSplit
    rcases htrig with hq | ⟨last, hl, hgt⟩
    · simp [hlast, hres]
      exact Or.inr (Or.inl (by simpa using hq))
    · simp [hlast, hres, hl]
      exact Or.inr (Or.inr (by simp [hgt]))
  unfold chunkStep
  rw [if_pos (by rw [hsp, Bool.and_eq_true]; exact ⟨rfl, by simp [hne]⟩)]
  exact ⟨rfl, rfl, rfl⟩

/-- Witness for `resolution_forces_split`: the state after processing
`"that worked, thanks!"` (a resolution phrase) receives `"new question?"`
twenty minutes later (below `gap_minutes = 30`, no size limit hit), and the
step closes the open chunk; end to end, the two-message input is split into
two chunks. -/
theorem resolution_forces_split_witness :
    (chunkByConversation 0
        [⟨"2024-01-01T10:00:00".data, "a".data, "that worked, thanks!".data, none⟩,
         ⟨"2024-01-01T10:20:00".data, "b".data, "new question?".data, none⟩]
        "r".data 30 50 4000).length = 2 ∧
    (chunkStep "r".data 30 50 4000 0
        (chunkStep "r".data 30 50 4000 0 ⟨[], [], 0, none, 0⟩
          ⟨"2024-01-01T10:00:00".data, "a".data, "that worked, thanks!".data, none⟩)
        ⟨"2024-01-01T10:20:00".data, "b".data, "new question?".data, none⟩).chunks
      = (chunkStep "r".data 30 50 4000 0 ⟨[], [], 0, none, 0⟩
          ⟨"2024-01-01T10:00:00".data, "a".data, "that worked, thanks!".data, none⟩).chunks
        ++ (createChunk
            (chunkStep "r".data 30 50 4000 0 ⟨[], [], 0, none, 0⟩
              ⟨"2024-01-01T10:00:00".data, "a".data, "that worked, thanks!".data, none⟩).current_chunk
            "r".data
            (chunkStep "r".data 30 50 4000 0 ⟨[], [], 0, none, 0⟩
              ⟨"2024-01-01T10:00:00".data, "a".data, "that worked, thanks!".data, none⟩).chunk_index).toList ∧
    (chunkStep "r".data 30 50 4000 0
        (chunkStep "r".data 30 50 4000 0 ⟨[], [], 0, none, 0⟩
          ⟨"2024-01-01T10:00:00".data, "a".data, "that worked, thanks!".data, none⟩)
        ⟨"2024-01-01T10:20:00".data, "b".data, "new question?".data, none⟩).current_chunk
      = [⟨"2024-01-01T10:20:00".data, "b".data, "new question?".data, none⟩] := by
  have h := resolution_forces_split "r".data 30 50 4000 0
    (chunkStep "r".data 30 50 4000 0 ⟨[], [], 0, none, 0⟩
      ⟨"2024-01-01T10:00:00".data, "a".data, "that worked, thanks!".data, none⟩)
    ⟨"2024-01-01T10:20:00".data, "b".data, "new question?".data, none⟩
    ⟨"2024-01-01T10:00:00".data, "a".data, "that worked, thanks!".data, none⟩
    (by decide) (by decide) (Or.inl (by decide))
  exact ⟨by decide, h.1, h.2.1⟩

-- ===========================================================================
-- Claim C7
-- ===========================================================================

theorem getEmbeddingsParallel_fold (embed : Str → Except Str (List Int)) (texts : List Str)
    (l : List (Nat × Str)) (init : List (Option EmbResult))
    (hlen : init.length = texts.length)
    (hl : ∀ p ∈ l, texts[p.1]? = some p.2) (j : Nat) :
    (l.foldl (fun results p => results.set p.1 (some (embedSingle embed p.1 p.2))) init)[j]?
      = if j ∈ l.map Prod.fst
        then (texts[j]?).map (fun t => some (embedSingle embed j t))
        else init[j]? := by
  induction l generalizing init with
  | nil => simp
  | cons p rest ih =>
    rw [List.foldl_cons]
    rw [ih (init.set p.1 (some (embedSingle embed p.1 p.2)))
      (by rw [List.length_set]; exact hlen) (fun q hq => hl q (by simp [hq]))]
    by_cases hj : j ∈ rest.map Prod.fst
    · rw [if_pos hj, if_pos (by simp [hj])]
    · rw [if_neg hj]
      by_cases hjp : j = p.1
      · have hp := hl p (by simp)
        have hlt : p.1 < texts.length := by
          by_contra hge
          rw [List.getElem?_eq_none (le_of_not_lt hge)] at hp
          cases hp
        rw [if_pos (by rw [List.map_cons, List.mem_cons]; exact Or.inl hjp)]
        rw [hjp]
        rw [List.getElem?_set, if_pos rfl, if_pos (by rw [hlen]; exact hlt), hp]
        rfl
      · rw [List.getElem?_set, if_neg (fun hc => hjp hc.symm)]
        rw [if_neg ?_]
        intro hc
        rw [List.map_cons, List.mem_cons] at hc
        rcases hc with hc | hc
        · exact hjp hc
        · exact hj hc

/-- Claim C7: whatever the per-text embedding capability does and in
whatever order the worker pool completes the submitted tasks (any
permutation of the enumerated texts), `getEmbeddingsParallel` returns one
result per input position, where position `i` holds exactly the result of
embedding text `i` — carrying index `i` and either the embedding or the
captured error string.  A failure at one index therefore neither aborts nor
alters any other index's result. -/
theorem getEmbeddingsParallel_spec (embed : Str → Except Str (List Int))
    (texts : List Str) (order : List (Nat × Str)) (h : order.Perm texts.enum) :
    getEmbeddingsParallel embed texts order
      = texts.enum.map (fun p => some (embedSingle embed p.1 p.2)) := by
  apply List.ext_getElem?
  intro j
  unfold getEmbeddingsParallel
  rw [getEmbeddingsParallel_fold embed texts order (List.replicate texts.length none)
    (List.length_replicate _ _)
    (fun p hp => List.mem_enum_iff_getElem?.mp (h.mem_iff.mp hp)) j]
  have hmem : (j ∈ order.map Prod.fst) ↔ j < texts.length := by
    rw [(h.map Prod.fst).mem_iff, List.enum_map_fst, List.mem_range]
  by_cases hj : j < texts.length
  · rw [if_pos (hmem.mpr hj)]
    rw [List.getElem?_map, List.getElem?_enum]
    cases texts[j]? <;> rfl
  · rw [if_neg (fun hc => hj (hmem.mp hc))]
    rw [List.getElem?_replicate, if_neg hj]
    rw [List.getElem?_map, List.getElem?_enum, List.getElem?_eq_none (le_of_not_lt hj)]
    rfl

/-- Witness for `getEmbeddingsParallel_spec`: three texts of which "b"
fails, completing in a scrambled order; positions 0 and 2 hold embeddings
and position 1 holds the captured error. -/
theorem getEmbeddingsParallel_spec_witness :
    getEmbeddingsParallel
        (fun t => if t = "b".data then .error "boom".data else .ok [7])
        ["a".data, "b".data, "c".data]
        [(2, "c".data), (0, "a".data), (1, "b".data)]
      = [some ⟨0, some [7], none⟩, some ⟨1, none, some "boom".data⟩,
         some ⟨2, some [7], none⟩] := by
  rw [getEmbeddingsParallel_spec
    (fun t => if t = "b".data then .error "boom".data else .ok [7])
    ["a".data, "b".data, "c".data]
    [(2, "c".data), (0, "a".data), (1, "b".data)] (by decide)]
  decide

-- ===========================================================================
-- Claim C8
-- ===========================================================================

theorem storeVectorsBatch_fold (put : List VData → Except Str Unit)
    (vectors : List VectorItem) (bs : Nat) (l : List Nat) (acc : Nat × List (Nat × Str)) :
    l.foldl (fun acc i =>
        let batch := (vectors.drop i).take bs
        match put (batch.map vectorData) with
        | .ok _ => (acc.1 + batch.length, acc.2)
        | .error e => (acc.1, acc.2 ++ [(i, e)])) acc
      = (acc.1 + ((l.filter (fun i =>
            match put (((vectors.drop i).take bs).map vectorData) with
            | .ok _ => true
            | .error _ => false)).map
          (fun i => ((vectors.drop i).take bs).length)).sum,
         acc.2 ++ l.filterMap (fun i =>
            match put (((vectors.drop i).take bs).map vectorData) with
            | .ok _ => none
            | .error e => some (i, e))) := by
  induction l generalizing acc with
  | nil => simp
  | cons i rest ih =>
    rw [List.foldl_cons]
    cases hput : put (((vectors.drop i).take bs).map vectorData) with
    | ok u =>
      simp only [hput, ih, List.filter_cons, List.filterMap_cons, hput]
      simp [Nat.add_assoc]
    | error e =>
      simp only [hput, ih, List.filter_cons, List.filterMap_cons, hput]
      simp [List.append_assoc]

theorem batches_join (vectors : List VectorItem) (bs : Nat) (hbs : 0 < bs) :
    ∀ k j, k = numBatches (vectors.length - j) bs →
      ((List.range' j k bs).map (fun i => (vectors.drop i).take bs)).flatten = vectors.drop j := by
  intro k
  induction k with
  | zero =>
    intro j hk
    have hlen : vectors.length - j = 0 := by
      by_contra hne
      have h1 : 1 ≤ vectors.length - j := Nat.one_le_iff_ne_zero.mpr hne
      have : 0 < numBatches (vectors.length - j) bs := by
        unfold numBatches
        exact Nat.div_pos (by omega) hbs
      omega
    have : vectors.drop j = [] :=
      List.eq_nil_of_length_eq_zero (by rw [List.length_drop]; exact hlen)
    simp [this]
  | succ k ih =>
    intro j hk
    rw [List.range'_succ, List.map_cons, List.flatten_cons]
    rcases Nat.lt_or_ge bs (vectors.length - j) with hlt | hge
    · have hk' : k = numBatches (vectors.length - (j + bs)) bs := by
        unfold numBatches at hk ⊢
        have harith : vectors.length - j + bs - 1 = (vectors.length - (j + bs) + bs - 1) + bs := by
          omega
        rw [harith, Nat.add_div_right _ hbs] at hk
        omega
      rw [ih (j + bs) hk']
      rw [← List.drop_drop]
      exact List.take_append_drop bs (vectors.drop j)
    · have hk0 : k = 0 := by
        unfold numBatches at hk
        have hlt2 : (vectors.length - j + bs - 1) / bs < 2 :=
          (Nat.div_lt_iff_lt_mul hbs).mpr (by omega)
        omega
      subst hk0
      rw [show List.range' (j + bs) 0 bs = [] from rfl]
      simp only [List.map_nil, List.flatten_nil, List.append_nil]
      exact List.take_of_length_le (by rw [List.length_drop]; omega)

/-- Claim C8: for a positive `batch_size`, `storeVectorsBatch` partitions
the vectors into contiguous batches of at most `batch_size` (issuing one
downstream call per batch offset; their concatenation is the whole input),
a failing batch is recorded with its starting offset without preventing
later batches from being attempted, and the returned stored count equals
the total size of the successfully written batches. -/
theorem storeVectorsBatch_spec (put : List VData → Except Str Unit)
    (vectors : List VectorItem) (bs : Nat) (hbs : 0 < bs) :
    (((batchOffsets vectors.length bs).map (fun i => (vectors.drop i).take bs)).flatten
        = vectors) ∧
    (∀ i ∈ batchOffsets vectors.length bs, ((vectors.drop i).take bs).length ≤ bs) ∧
    ((storeVectorsBatch put vectors bs).1
      = (((batchOffsets vectors.length bs).filter (fun i =>
            match put (((vectors.drop i).take bs).map vectorData) with
            | .ok _ => true
            | .error _ => false)).map
          (fun i => ((vectors.drop i).take bs).length)).sum) ∧
    ((storeVectorsBatch put vectors bs).2
      = (batchOffsets vectors.length bs).filterMap (fun i =>
          match put (((vectors.drop i).take bs).map vectorData) with
          | .ok _ => none
          | .error e => some (i, e))) := by
  refine ⟨?_, ?_, ?_, ?_⟩
  · exact batches_join vectors bs hbs (numBatches vectors.length bs) 0 (by simp [numBatches])
  · intro i _
    exact List.length_take_le bs _
  · unfold storeVectorsBatch
    rw [storeVectorsBatch_fold]
    simp
  · unfold storeVectorsBatch
    rw [storeVectorsBatch_fold]
    simp

/-- Witness for `storeVectorsBatch_spec`: five vectors with `batch_size =
2` form three batches at offsets 0, 2, 4; the middle batch's write fails,
is recorded at offset 2, and the stored count is the `2 + 1 = 3` vectors of
the two successful batches. -/
theorem storeVectorsBatch_spec_witness :
    (storeVectorsBatch
        (fun b => if (b.map VData.key).contains "k2".data then .error "boom".data else .ok ())
        [⟨"k0".data, [1], []⟩, ⟨"k1".data, [1], []⟩, ⟨"k2".data, [1], []⟩,
         ⟨"k3".data, [1], []⟩, ⟨"k4".data, [1], []⟩] 2).1 = 3 ∧
    (storeVectorsBatch
        (fun b => if (b.map VData.key).contains "k2".data then .error "boom".data else .ok ())
        [⟨"k0".data, [1], []⟩, ⟨"k1".data, [1], []⟩, ⟨"k2".data, [1], []⟩,
         ⟨"k3".data, [1], []⟩, ⟨"k4".data, [1], []⟩] 2).2 = [(2, "boom".data)] ∧
    (((batchOffsets 5 2).map (fun i =>
        ([⟨"k0".data, [1], []⟩, ⟨"k1".data, [1], []⟩, ⟨"k2".data, [1], []⟩,
          ⟨"k3".data, [1], []⟩, ⟨"k4".data, [1], []⟩] : List VectorItem).drop i |>.take 2)).flatten
      = [⟨"k0".data, [1], []⟩, ⟨"k1".data, [1], []⟩, ⟨"k2".data, [1], []⟩,
         ⟨"k3".data, [1], []⟩, ⟨"k4".data, [1], []⟩]) := by
  have h := storeVectorsBatch_spec
    (fun b => if (b.map VData.key).contains "k2".data then .error "boom".data else .ok ())
    [⟨"k0".data, [1], []⟩, ⟨"k1".data, [1], []⟩, ⟨"k2".data, [1], []⟩,
     ⟨"k3".data, [1], []⟩, ⟨"k4".data, [1], []⟩] 2 (by decide)
  refine ⟨?_, ?_, ?_⟩
  · rw [h.2.2.1]; decide
  · rw [h.2.2.2]; decide
  · exact h.1


-- ===========================================================================
-- Claim C10
-- ===========================================================================

theorem dedupe_fold_eq (l : List Msg) : ∀ (seen : List Str) (acc : List Msg),
    (l.foldl dedupeStep (seen, acc)).2 = acc ++ dedupeRec seen l := by
  induction l with
  | nil => intro seen acc; simp [dedupeRec]
  | cons m rest ih =>
    intro seen acc
    rw [List.foldl_cons]
    cases hid : m.message_id with
    | none =>
      rw [show dedupeStep (seen, acc) m = (seen, acc ++ [m]) by simp [dedupeStep, hid]]
      rw [ih seen (acc ++ [m])]
      simp [dedupeRec, hid, List.append_assoc]
    | some mid =>
      cases hmid : mid.isEmpty with
      | true =>
        rw [show dedupeStep (seen, acc) m = (seen, acc ++ [m]) by
          simp [dedupeStep, hid, hmid]]
        rw [ih seen (acc ++ [m])]
        simp [dedupeRec, hid, hmid, List.append_assoc]
      | false =>
        by_cases hseen : mid ∈ seen
        · rw [show dedupeStep (seen, acc) m = (seen, acc) by
            simp [dedupeStep, hid, hmid, hseen]]
          rw [ih seen acc]
          simp [dedupeRec, hid, hmid, hseen]
        · rw [show dedupeStep (seen, acc) m = (seen ++ [mid], acc ++ [m]) by
            simp [dedupeStep, hid, hmid, hseen]]
          rw [ih (seen ++ [mid]) (acc ++ [m])]
          simp [dedupeRec, hid, hmid, hseen, List.append_assoc]

theorem dedupeMessages_eq_rec (messages : List Msg) :
    dedupeMessages messages = dedupeRec [] messages := by
  unfold dedupeMessages
  rw [dedupe_fold_eq]
  simp

theorem dedupeRec_sublist (seen : List Str) (l : List Msg) :
    (dedupeRec seen l).Sublist l := by
  induction l generalizing seen with
  | nil => simp [dedupeRec]
  | cons m rest ih =>
    cases hid : m.message_id with
    | none => simpa [dedupeRec, hid] using (ih seen).cons₂ m
    | some mid =>
      cases hmid : mid.isEmpty with
      | true => simpa [dedupeRec, hid, hmid] using (ih seen).cons₂ m
      | false =>
        by_cases hseen : mid ∈ seen
        · simpa [dedupeRec, hid, hmid, hseen] using (ih seen).cons m
        · simpa [dedupeRec, hid, hmid, hseen] using (ih (seen ++ [mid])).cons₂ m

theorem dedupeRec_filter_id (l : List Msg) : ∀ (seen : List Str) (s : Str), s ≠ [] →
    (dedupeRec seen l).filter (fun m => decide (m.message_id = some s))
      = if s ∈ seen then []
        else (l.find? (fun m => decide (m.message_id = some s))).toList := by
  induction l with
  | nil =>
    intro seen s _
    simp [dedupeRec]
  | cons m rest ih =>
    intro seen s hs
    cases hid : m.message_id with
    | none =>
      have hpm : decide (m.message_id = some s) = false :=
        decide_eq_false (by rw [hid]; exact fun hc => Option.noConfusion hc)
      rw [show dedupeRec seen (m :: rest) = m :: dedupeRec seen rest by
        simp [dedupeRec, hid]]
      rw [List.filter_cons, List.find?_cons, hpm, ih seen s hs]
      simp
    | some mid =>
      cases hmid : mid.isEmpty with
      | true =>
        have hmide : mid = [] := List.isEmpty_iff.mp hmid
        subst hmide
        have hpm : decide (m.message_id = some s) = false :=
          decide_eq_false (by
            rw [hid]
            intro hc
            injection hc with h2
            exact hs h2.symm)
        rw [show dedupeRec seen (m :: rest) = m :: dedupeRec seen rest by
          simp [dedupeRec, hid, hmid]]
        rw [List.filter_cons, List.find?_cons, hpm, ih seen s hs]
        simp
      | false =>
        by_cases hseen : mid ∈ seen
        · rw [show dedupeRec seen (m :: rest) = dedupeRec seen rest by
            simp [dedupeRec, hid, hmid, hseen]]
          rw [ih seen s hs]
          by_cases hss : s ∈ seen
          · rw [if_pos hss, if_pos hss]
          · have hms : mid ≠ s := fun hc => hss (hc ▸ hseen)
            have hpm : decide (m.message_id = some s) = false :=
              decide_eq_false (by
                rw [hid]
                intro hc
                injection hc with h2
                exact hms h2)
            rw [if_neg hss, if_neg hss, List.find?_cons, hpm]
        · rw [show dedupeRec seen (m :: rest)
              = m :: dedupeRec (seen ++ [mid]) rest by
            simp [dedupeRec, hid, hmid, hseen]]
          by_cases hms : mid = s
          · subst hms
            have hpm : decide (m.message_id = some mid) = true :=
              decide_eq_true (by rw [hid])
            rw [List.filter_cons, if_pos hpm, ih (seen ++ [mid]) mid hs,
              if_pos (show mid ∈ seen ++ [mid] by simp), if_neg hseen,
              List.find?_cons, hpm]
            rfl
          · have hpm : decide (m.message_id = some s) = false :=
              decide_eq_false (by
                rw [hid]
                intro hc
                injection hc with h2
                exact hms h2)
            rw [List.filter_cons, List.find?_cons, hpm, ih (seen ++ [mid]) s hs]
            have hmem : (s ∈ seen ++ [mid]) ↔ s ∈ seen := by
              simp
              exact fun hc => absurd hc.symm hms
            by_cases hss : s ∈ seen
            · rw [if_pos (hmem.mpr hss), if_pos hss]
              simp
            · rw [if_neg (fun hc => hss (hmem.mp hc)), if_neg hss]
              simp

theorem dedupeRec_countP_falsy (l : List Msg) : ∀ (seen : List Str),
    (dedupeRec seen l).countP idFalsy = l.countP idFalsy := by
  induction l with
  | nil => intro seen; simp [dedupeRec]
  | cons m rest ih =>
    intro seen
    cases hid : m.message_id with
    | none =>
      rw [show dedupeRec seen (m :: rest) = m :: dedupeRec seen rest by
        simp [dedupeRec, hid]]
      rw [List.countP_cons, List.countP_cons, ih seen]
    | some mid =>
      cases hmid : mid.isEmpty with
      | true =>
        rw [show dedupeRec seen (m :: rest) = m :: dedupeRec seen rest by
          simp [dedupeRec, hid, hmid]]
        rw [List.countP_cons, List.countP_cons, ih seen]
      | false =>
        by_cases hseen : mid ∈ seen
        · rw [show dedupeRec seen (m :: rest) = dedupeRec seen rest by
            simp [dedupeRec, hid, hmid, hseen]]
          rw [ih seen, List.countP_cons]
          have hf : idFalsy m = false := by simp [idFalsy, hid, hmid]
          rw [hf]
          simp
        · rw [show dedupeRec seen (m :: rest)
              = m :: dedupeRec (seen ++ [mid]) rest by
            simp [dedupeRec, hid, hmid, hseen]]
          rw [List.countP_cons, List.countP_cons, ih (seen ++ [mid])]

/-- Claim C10, counterexample.  Two distinct messages both carry the
non-null `message_id` `""` (the empty string).  The claim requires later
messages with the same non-null id to be dropped, but Python's truthiness
test (`if msg_id`) treats an empty-string id like an absent one, so both
messages are kept. -/
theorem dedupe_cex :
    dedupeMessages
        [⟨[], [], "1".data, some []⟩, ⟨[], [], "2".data, some []⟩]
      = [⟨[], [], "1".data, some []⟩, ⟨[], [], "2".data, some []⟩] ∧
    ([⟨[], [], "1".data, some []⟩, ⟨[], [], "2".data, some []⟩] : List Msg).map
        Msg.message_id = [some [], some []] :=
  ⟨by decide, by decide⟩

/-- Claim C10 (amended): the deduplication step returns a subsequence of
the input that preserves relative order; for every distinct non-EMPTY
`message_id`, exactly the first occurrence is kept (the retained messages
with that id are exactly the input's first such message, later ones are
dropped); and every message whose `message_id` is absent or empty is
kept. -/
theorem dedupeMessages_spec (messages : List Msg) :
    (dedupeMessages messages).Sublist messages ∧
    (∀ s : Str, s ≠ [] →
      (dedupeMessages messages).filter (fun m => decide (m.message_id = some s))
        = (messages.find? (fun m => decide (m.message_id = some s))).toList) ∧
    (dedupeMessages messages).countP idFalsy = messages.countP idFalsy := by
  rw [dedupeMessages_eq_rec]
  refine ⟨dedupeRec_sublist [] messages, ?_, dedupeRec_countP_falsy messages []⟩
  intro s hs
  rw [dedupeRec_filter_id messages [] s hs]
  simp

/-- Witness for `dedupeMessages_spec` on a concrete list with ids
`x, x, absent, empty`: the second `x` is dropped, the absent- and empty-id
messages are kept. -/
theorem dedupeMessages_spec_witness :
    (dedupeMessages
        [⟨[], [], "1".data, some "x".data⟩, ⟨[], [], "2".data, some "x".data⟩,
         ⟨[], [], "3".data, none⟩, ⟨[], [], "4".data, some []⟩]).Sublist
      [⟨[], [], "1".data, some "x".data⟩, ⟨[], [], "2".data, some "x".data⟩,
       ⟨[], [], "3".data, none⟩, ⟨[], [], "4".data, some []⟩] ∧
    (dedupeMessages
        [⟨[], [], "1".data, some "x".data⟩, ⟨[], [], "2".data, some "x".data⟩,
         ⟨[], [], "3".data, none⟩, ⟨[], [], "4".data, some []⟩]).filter
        (fun m => decide (m.message_id = some "x".data))
      = (([⟨[], [], "1".data, some "x".data⟩, ⟨[], [], "2".data, some "x".data⟩,
          ⟨[], [], "3".data, none⟩, ⟨[], [], "4".data, some []⟩] : List Msg).find?
          (fun m => decide (m.message_id = some "x".data))).toList ∧
    (dedupeMessages
        [⟨[], [], "1".data, some "x".data⟩, ⟨[], [], "2".data, some "x".data⟩,
         ⟨[], [], "3".data, none⟩, ⟨[], [], "4".data, some []⟩]).countP idFalsy
      = ([⟨[], [], "1".data, some "x".data⟩, ⟨[], [], "2".data, some "x".data⟩,
          ⟨[], [], "3".data, none⟩, ⟨[], [], "4".data, some []⟩] : List Msg).countP idFalsy := by
  have h := dedupeMessages_spec
    [⟨[], [], "1".data, some "x".data⟩, ⟨[], [], "2".data, some "x".data⟩,
     ⟨[], [], "3".data, none⟩, ⟨[], [], "4".data, some []⟩]
  exact ⟨h.1, h.2.1 "x".data (by decide), h.2.2⟩

-- ===========================================================================
-- Claim C9
-- ===========================================================================

theorem cursorLe_refl (a : Option Str) : cursorLe a a := by
  cases a with
  | none => trivial
  | some s => exact strLe_refl s

theorem cursorLe_trans {a b c : Option Str} (h1 : cursorLe a b) (h2 : cursorLe b c) :
    cursorLe a c := by
  cases a with
  | none => trivial
  | some x =>
    cases b with
    | none => cases h1
    | some y =>
      cases c with
      | none => cases h2
      | some z => exact strLe_trans h1 h2

theorem getLastD_default_irrel {α : Type} (l : List α) (h : l ≠ []) (d1 d2 : α) :
    l.getLastD d1 = l.getLastD d2 := by
  rw [List.getLastD_eq_getLast?, List.getLastD_eq_getLast?]
  obtain ⟨x, hx⟩ := Option.isSome_iff_exists.mp (List.getLast?_isSome.mpr h)
  rw [hx]
  rfl

theorem getLastD_mem {α : Type} (l : List α) (d : α) (h : l ≠ []) : l.getLastD d ∈ l := by
  induction l generalizing d with
  | nil => cases h rfl
  | cons a rest ih =>
    rw [List.getLastD_cons]
    cases hr : rest with
    | nil => simp
    | cons r t =>
      subst hr
      exact List.mem_cons_of_mem a (ih a (by simp))

theorem processFile_cursor (env : SyncEnv) (st : SyncState) (fi : FileInfo) :
    (processFile env st fi).cursor = st.cursor ∨
    (processFile env st fi).cursor = some fi.date := by
  simp only [processFile]
  split
  · left; rfl
  · split
    · left; rfl
    · split
      · right; rfl
      · right; rfl

theorem processFile_complete_cursor (env : SyncEnv) (st : SyncState) (fi : FileInfo)
    (h : FileCompletes env fi) :
    (processFile env st fi).cursor = some fi.date := by
  obtain ⟨h1, h2⟩ := h
  simp only [processFile]
  rw [if_neg (by simp [List.isEmpty_iff]; exact h1),
    if_neg (by simp [List.isEmpty_iff]; exact h2)]
  split <;> rfl

theorem processLoop_cursor_mono (env : SyncEnv) (l : List FileInfo) :
    ∀ (k : Nat) (st : SyncState), (∀ fi ∈ l, cursorLe st.cursor (some fi.date)) →
      List.Pairwise dateOrd l →
      cursorLe st.cursor (processLoop env k st l).cursor := by
  induction l with
  | nil => intro k st _ _; exact cursorLe_refl st.cursor
  | cons fi rest ih =>
    intro k st h hp
    have hstep : cursorLe st.cursor (processFile env st fi).cursor := by
      rcases processFile_cursor env st fi with hc | hc
      · rw [hc]; exact cursorLe_refl st.cursor
      · rw [hc]; exact h fi (by simp)
    have hrest : ∀ fj ∈ rest, cursorLe (processFile env st fi).cursor (some fj.date) := by
      intro fj hfj
      rcases processFile_cursor env st fi with hc | hc
      · rw [hc]; exact h fj (by simp [hfj])
      · rw [hc]; exact List.rel_of_pairwise_cons hp hfj
    have hmono := ih (k + 1) (processFile env st fi) hrest hp.of_cons
    unfold processLoop
    cases hrem : env.remaining with
    | none => exact cursorLe_trans hstep hmono
    | some rem =>
      show cursorLe st.cursor (if rem k < 30000 then st
        else processLoop env (k + 1) (processFile env st fi) rest).cursor
      by_cases hlow : rem k < 30000
      · rw [if_pos hlow]; exact cursorLe_refl st.cursor
      · rw [if_neg hlow]; exact cursorLe_trans hstep hmono

theorem processLoop_complete_cursor (env : SyncEnv) (hrem : env.remaining = none) :
    ∀ (l : List FileInfo) (k : Nat) (st : SyncState), (∀ fi ∈ l, FileCompletes env fi) →
      l ≠ [] →
      (processLoop env k st l).cursor = some ((l.map FileInfo.date).getLastD []) := by
  intro l
  induction l with
  | nil => intro k st _ hne; cases hne rfl
  | cons fi rest ih =>
    intro k st hcomp _
    unfold processLoop
    rw [hrem]
    cases hr : rest with
    | nil =>
      subst hr
      show (processFile env st fi).cursor = _
      rw [processFile_complete_cursor env st fi (hcomp fi (by simp))]
      rfl
    | cons r t =>
      subst hr
      show (processLoop env (k + 1) (processFile env st fi) (r :: t)).cursor = _
      rw [ih (k + 1) (processFile env st fi) (fun fj hfj => hcomp fj (by simp [hfj]))
        (by simp)]
      simp [List.getLastD_cons]

theorem getNewChatFiles_not_le (keys : List Str) (c : Str) (hc : c ≠ []) :
    ∀ fi ∈ getNewChatFiles keys (some c), strLe fi.date c = false := by
  intro fi hfi
  unfold getNewChatFiles at hfi
  rw [List.mem_filterMap] at hfi
  obtain ⟨k, _, hparse⟩ := hfi
  cases hp : parseChatKey k with
  | none => rw [hp] at hparse; cases hparse
  | some fi' =>
    rw [hp] at hparse
    cases hcond : (!c.isEmpty && strLe fi'.date c) with
    | true => simp [hcond] at hparse
    | false =>
      simp only [hcond, Bool.false_eq_true, if_false, Option.some_inj] at hparse
      subst hparse
      rcases Bool.and_eq_false_iff.mp hcond with hcond' | hcond'
      · exfalso
        rw [Bool.not_eq_false', List.isEmpty_iff] at hcond'
        exact hc hcond'
      · exact hcond'

theorem mem_getNewChatFiles (keys : List Str) (c : Str) (k : Str) (fi : FileInfo)
    (hk : k ∈ keys) (hp : parseChatKey k = some fi) (hsl : strLe fi.date c = false) :
    fi ∈ getNewChatFiles keys (some c) := by
  unfold getNewChatFiles
  rw [List.mem_filterMap]
  refine ⟨k, hk, ?_⟩
  simp [hp, hsl]

theorem getNewChatFiles_empty (keys : List Str) (d : Str) (hd : d ≠ [])
    (h : ∀ k ∈ keys, ∀ fi, parseChatKey k = some fi → strLe fi.date d = true) :
    getNewChatFiles keys (some d) = [] := by
  unfold getNewChatFiles
  rw [List.filterMap_eq_nil_iff]
  intro k hk
  cases hp : parseChatKey k with
  | none => simp
  | some fi =>
    have hde : d.isEmpty = false := by rw [← Bool.not_eq_true, List.isEmpty_iff]; exact hd
    simp [hp, h k hk fi hp, hde]

theorem sorted_date_le_getLastD (l : List FileInfo) (hs : List.Sorted dateOrd l) :
    ∀ fi ∈ l, strLe fi.date ((l.map FileInfo.date).getLastD []) = true := by
  induction l with
  | nil => intro fi h; cases h
  | cons a rest ih =>
    intro fi hfi
    rw [List.sorted_cons] at hs
    cases hr : rest with
    | nil =>
      subst hr
      rw [List.mem_singleton] at hfi
      subst hfi
      exact strLe_refl fi.date
    | cons r t =>
      subst hr
      have hlast : ((a :: r :: t).map FileInfo.date).getLastD []
          = ((r :: t).map FileInfo.date).getLastD [] := by
        rw [List.map_cons, List.getLastD_cons]
        exact getLastD_default_irrel _ (by simp) a.date []
      rw [hlast]
      rcases List.mem_cons.mp hfi with hfa | hfr
      · subst hfa
        obtain ⟨fiL, hfiL, hdL⟩ := List.mem_map.mp
          (getLastD_mem ((r :: t).map FileInfo.date) [] (by simp))
        rw [← hdL]
        exact hs.1 fiL hfiL
      · exact ih hs.2 fi hfr

/-- Claim C9: (1) discovery filters out every source whose embedded date is
≤ the current (non-empty) cursor; (2) a run of the sync driver never moves
the cursor backwards — the cursor only ever advances under the
string/lexicographic date order, the discovered sources being processed in
ascending date order with the cursor set to each completed source's date;
(3) when no early pause occurs and every discovered source completes, the
final cursor is the greatest discovered date and re-invoking discovery on
the same keys finds zero new sources. -/
theorem checkpoint_monotonic (keys : List Str) (env : SyncEnv) (st0 : SyncState)
    (c0 : Str) (hc0 : st0.cursor = some c0) (hc0ne : c0 ≠ []) :
    (∀ fi ∈ getNewChatFiles keys st0.cursor, strLe fi.date c0 = false) ∧
    cursorLe st0.cursor (runSync env keys st0).cursor ∧
    (env.remaining = none →
      (∀ fi ∈ getNewChatFiles keys st0.cursor, FileCompletes env fi) →
      getNewChatFiles keys st0.cursor ≠ [] →
      getNewChatFiles keys (runSync env keys st0).cursor = []) := by
  have hfilter : ∀ fi ∈ getNewChatFiles keys st0.cursor, strLe fi.date c0 = false := by
    rw [hc0]
    exact getNewChatFiles_not_le keys c0 hc0ne
  refine ⟨hfilter, ?_, ?_⟩
  · unfold runSync processNewFiles
    apply processLoop_cursor_mono
    · intro fi hfi
      have hm := (List.mem_insertionSort dateOrd).mp hfi
      rw [hc0]
      exact strLe_of_not_strLe (hfilter fi hm)
    · exact List.sorted_insertionSort dateOrd _
  · intro hrem hcomp hne
    have hsne : (getNewChatFiles keys st0.cursor).insertionSort dateOrd ≠ [] := by
      intro hcontra
      apply hne
      have hl := (List.perm_insertionSort dateOrd (getNewChatFiles keys st0.cursor)).length_eq
      rw [hcontra] at hl
      exact List.eq_nil_of_length_eq_zero hl.symm
    have hcur : (runSync env keys st0).cursor
        = some ((((getNewChatFiles keys st0.cursor).insertionSort dateOrd).map
            FileInfo.date).getLastD []) := by
      unfold runSync processNewFiles
      exact processLoop_complete_cursor env hrem _ 0 st0
        (fun fi hfi => hcomp fi ((List.mem_insertionSort dateOrd).mp hfi)) hsne
    obtain ⟨fiL, hfiLmem, hfiLdate⟩ := List.mem_map.mp
      (getLastD_mem (((getNewChatFiles keys st0.cursor).insertionSort dateOrd).map
          FileInfo.date) []
        (fun hcontra => hsne (by simpa using hcontra)))
    have hfiLfiles : fiL ∈ getNewChatFiles keys st0.cursor :=
      (List.mem_insertionSort dateOrd).mp hfiLmem
    have hLc0 : strLe fiL.date c0 = false := hfilter fiL hfiLfiles
    have hdmaxne : (((getNewChatFiles keys st0.cursor).insertionSort dateOrd).map
        FileInfo.date).getLastD [] ≠ [] := by
      rw [← hfiLdate]
      intro hcontra
      rw [hcontra] at hLc0
      simp [strLe] at hLc0
    have hc0dmax : strLe c0 ((((getNewChatFiles keys st0.cursor).insertionSort
        dateOrd).map FileInfo.date).getLastD []) = true := by
      rw [← hfiLdate]
      exact strLe_of_not_strLe hLc0
    rw [hcur]
    apply getNewChatFiles_empty keys _ hdmaxne
    intro k hk fi hp
    cases hsl : strLe fi.date c0 with
    | true => exact strLe_trans hsl hc0dmax
    | false =>
      have hmem : fi ∈ getNewChatFiles keys st0.cursor := by
        rw [hc0]
        exact mem_getNewChatFiles keys c0 k fi hk hp hsl
      exact sorted_date_le_getLastD _
        (List.sorted_insertionSort dateOrd (getNewChatFiles keys st0.cursor)) fi
        ((List.mem_insertionSort dateOrd).mpr hmem)

/-- Witness for `checkpoint_monotonic`: two well-formed keys dated
`2024-01-01` and `2024-01-02` with the cursor at `2023-12-31`; after the
run the cursor has not moved backwards and re-discovery on the same keys
finds nothing. -/
theorem checkpoint_monotonic_witness :
    cursorLe (some "2023-12-31".data)
      (runSync happyEnv
        ["feed/r_2024-01-01_chat.json".data, "feed/r_2024-01-02_chat.json".data]
        ⟨some "2023-12-31".data, 0, 0, []⟩).cursor ∧
    getNewChatFiles
        ["feed/r_2024-01-01_chat.json".data, "feed/r_2024-01-02_chat.json".data]
        (runSync happyEnv
          ["feed/r_2024-01-01_chat.json".data, "feed/r_2024-01-02_chat.json".data]
          ⟨some "2023-12-31".data, 0, 0, []⟩).cursor = [] := by
  have h := checkpoint_monotonic
    ["feed/r_2024-01-01_chat.json".data, "feed/r_2024-01-02_chat.json".data]
    happyEnv ⟨some "2023-12-31".data, 0, 0, []⟩ "2023-12-31".data rfl (by decide)
  exact ⟨h.2.1, h.2.2 rfl (by decide) (by decide)⟩

-- ===========================================================================
-- Claim C1
-- ===========================================================================

/-- Claim C1: evaluation of the code at the failing input.  With the
cursor at `2024-01-02` and a single source dated `2024-01-03` whose
vector-store writer fails its batch, the driver still advances the cursor
to `2024-01-03` even though zero vectors were stored: `storeVectorsBatch`
absorbs the write failure into the error record and the per-file body of
`processNewFiles` checkpoints unconditionally, so a subsequent discovery
does NOT rediscover the source.  The claim (and spec §4.6/§7/§8.8) say the
cursor must remain at `2024-01-02` and the source must be reprocessed. -/
theorem checkpoint_advances_despite_write_failure :
    (runSync failingPutEnv ["feed/room1_2024-01-03_chat.json".data]
        ⟨some "2024-01-02".data, 0, 0, []⟩).cursor = some "2024-01-03".data ∧
    (runSync failingPutEnv ["feed/room1_2024-01-03_chat.json".data]
        ⟨some "2024-01-02".data, 0, 0, []⟩).vectors_stored = 0 ∧
    (runSync failingPutEnv ["feed/room1_2024-01-03_chat.json".data]
        ⟨some "2024-01-02".data, 0, 0, []⟩).errors
      = [ErrRec.batchErr 0 "write failed".data] ∧
    getNewChatFiles ["feed/room1_2024-01-03_chat.json".data]
        (runSync failingPutEnv ["feed/room1_2024-01-03_chat.json".data]
          ⟨some "2024-01-02".data, 0, 0, []⟩).cursor = [] :=
  ⟨by decide, by decide, by decide, by decide⟩
